import Mathlib

/-!
Verification of the ITQ-based LSH index `itqLsh` from
`src/python/include/lshbox/lsh/itqlsh.h` (LSHBOX).

Shallow embedding conventions:
* C++ `unsigned` is modelled as `Nat`; where the code relies on 32-bit
  wraparound (the accumulating `sum` in `getHashVal`) the embedding takes
  the result modulo `2 ^ 32` at each addition, exactly as the hardware does.
* `float` values that are only stored, copied and compared (`pcsAll`,
  `omegasAll`, projection products) are modelled as exact rationals `ℚ`;
  none of the verified properties depends on rounding, only on the
  control flow driven by sign tests and on which values are stored where.
* `std::map<unsigned, std::vector<unsigned>>` is modelled as an
  association list sorted strictly ascending by key (`Table`), with
  `mapFind` mirroring ordered-map lookup, `mapGet` mirroring `operator[]`
  (default-inserting an empty bucket when the key is absent), `mapAppend`
  mirroring `tables[k][h].push_back(key)`, and `mapSet` mirroring
  `tables[i][target].resize(n)` followed by a full overwrite in `load`.
* The PRNG streams (`std::mt19937` through the uniform distribution in
  `reset`) are abstracted as a function argument `draw : Nat → Nat`; the
  `i`-th value produced by `uniform_int_distribution(0, M-1)` is modelled
  as `draw i % M`, which captures the distribution contract that every
  produced value lies in `[0, M)`.
* The Eigen-based numerics of `train` (PCA eigendecomposition, SVD, the
  ITQ loop) write no index state: the whole per-table computation is
  local and ends in a full overwrite of `pcsAll[k]` and `omegasAll[k]`
  (itqlsh.h lines 221-238).  For the frame-effect claims it is abstracted
  as an argument `fit : Nat → matrices`; the sign-quantization step of
  the ITQ loop (lines 208-216) is embedded concretely as `signQuant`.
* The binary streams written by `save` and read by `load` are modelled as
  `List Word` where a `Word` is one 32-bit unsigned integer or one float.
-/

namespace lshbox

/-- Parameter record of `itqLsh` (itqlsh.h lines 53-67): hash table size
`M`, number of tables `L`, dimension `D`, code length `N`, training sample
size `S`, training iterations `I`. -/
structure Parameter where
  M : Nat
  L : Nat
  D : Nat
  N : Nat
  S : Nat
  I : Nat
deriving DecidableEq, Repr

/-- A bucket: the ids stored under one hash value, in insertion order. -/
abbrev Bucket := List Nat

/-- One hash table: `std::map<unsigned, std::vector<unsigned>>`, modelled
as an association list sorted strictly ascending by key. -/
abbrev Table := List (Nat × Bucket)

/-- The state of an `itqLsh` index (itqlsh.h lines 128-133). -/
structure ItqLsh where
  param : Parameter
  pcsAll : List (List (List ℚ))
  omegasAll : List (List (List ℚ))
  rndArray : List (List Nat)
  tables : List Table
deriving DecidableEq, Repr

/-- Ordered-map lookup (`std::map::find`): the search stops as soon as the
sought key is smaller than the current (ascending) key. -/
def mapFind : Table → Nat → Option Bucket
  | [], _ => none
  | (k, ids) :: rest, b =>
    if b < k then none
    else if b = k then some ids
    else mapFind rest b

/-- `std::map::operator[]`: returns the table (with an empty bucket
default-inserted when the key is absent) and the bucket at the key. -/
def mapGet : Table → Nat → Table × Bucket
  | [], b => ([(b, [])], [])
  | (k, ids) :: rest, b =>
    if b < k then ((b, []) :: (k, ids) :: rest, [])
    else if b = k then ((k, ids) :: rest, ids)
    else
      let r := mapGet rest b
      ((k, ids) :: r.1, r.2)

/-- `tables[k][h].push_back(key)` (itqlsh.h line 257): `operator[]`
followed by an append to the bucket. -/
def mapAppend : Table → Nat → Nat → Table
  | [], b, id => [(b, [id])]
  | (k, ids) :: rest, b, id =>
    if b < k then (b, [id]) :: (k, ids) :: rest
    else if b = k then (k, ids ++ [id]) :: rest
    else (k, ids) :: mapAppend rest b id

/-- `tables[i][target].resize(length)` followed by a full overwrite of the
bucket with freshly read ids (itqlsh.h lines 330-331): the bucket at the
key becomes exactly `ids`. -/
def mapSet : Table → Nat → Bucket → Table
  | [], b, ids => [(b, ids)]
  | (k, v) :: rest, b, ids =>
    if b < k then (b, ids) :: (k, v) :: rest
    else if b = k then (k, ids) :: rest
    else (k, v) :: mapSet rest b ids

/-- Indexed map over a list starting at index `i`: models a C++ loop
`for (k = i; ...) arr[k] = f(k, arr[k])`. -/
def mapIdxFrom (f : Nat → α → α) : Nat → List α → List α
  | _, [] => []
  | i, a :: as => f i a :: mapIdxFrom f (i + 1) as

/-- `std::vector::resize(n)`: keep the first `n` elements, pad with
`pad` when the vector was shorter. -/
def resizeWith (l : List α) (n : Nat) (pad : α) : List α :=
  l.take n ++ List.replicate (n - l.length) pad

/-- The accumulating dot product `for (j = 0; j != row.size(); ++j)
acc += v[j] * row[j]` (itqlsh.h lines 285-288 and 293-296); defined when
`v` is at least as long as `row` (shorter `v` is out-of-bounds UB in the
source). -/
def dotQ (row v : List ℚ) : ℚ :=
  (List.zipWith (fun a b => a * b) v row).sum

/-- One step of the accumulating loop of `getHashVal` (itqlsh.h lines
297-300): if the rotated projection is strictly positive, add the bit
weight `w` to the running 32-bit unsigned sum. -/
def hashStep (w : Nat) (product : ℚ) (s : Nat) : Nat :=
  if 0 < product then (s + w) % 2 ^ 32 else s

/-- `itqLsh::getHashVal` (itqlsh.h lines 278-304): project the raw vector
through `pcsAll[k]`, rotate through `omegasAll[k]`, accumulate the
weights of the strictly positive bits, and reduce modulo `M`. -/
def getHashVal (st : ItqLsh) (k : Nat) (domin : List ℚ) : Nat :=
  let pcs := st.pcsAll.getD k []
  let omegas := st.omegasAll.getD k []
  let rnd := st.rndArray.getD k []
  let domin_pc := pcs.map (fun row => dotQ row domin)
  let sum := (List.range domin_pc.length).foldl
    (fun s i => hashStep (rnd.getD i 0) (dotQ (omegas.getD i []) domin_pc) s) 0
  sum % st.param.M

/-- The hash value as the specification states it: `p[i] = Σ_{j<D} v[j] ·
pcs[k][i][j]`, `s[i] = Σ_{j<N} p[j] · omegas[k][i][j]`, the weights
`rnd[k][i]` of the bits `i < N` with `s[i] > 0` summed with 32-bit
unsigned wraparound, then reduced modulo `M`. -/
def getHashValSpec (st : ItqLsh) (k : Nat) (v : List ℚ) : Nat :=
  let p := fun i : Nat =>
    ((List.range st.param.D).map
      (fun j => v.getD j 0 * ((st.pcsAll.getD k []).getD i []).getD j 0)).sum
  let s := fun i : Nat =>
    ((List.range st.param.N).map
      (fun j => p j * ((st.omegasAll.getD k []).getD i []).getD j 0)).sum
  ((((List.range st.param.N).filter (fun i => decide (0 < s i))).map
      (fun i => (st.rndArray.getD k []).getD i 0)).sum % 2 ^ 32) % st.param.M

/-- `itqLsh::insert` (itqlsh.h lines 251-259): for every table `k < L`,
append `key` to the bucket of `getHashVal(k, domin)`. -/
def insert (st : ItqLsh) (key : Nat) (domin : List ℚ) : ItqLsh :=
  { st with
    tables := mapIdxFrom
      (fun k t => if k < st.param.L then mapAppend t (getHashVal st k domin) key else t)
      0 st.tables }

/-- `itqLsh::hash` (itqlsh.h lines 241-250): insert every row of the
dataset under its row index. -/
def hash (st : ItqLsh) (data : List (List ℚ)) : ItqLsh :=
  (List.range data.length).foldl (fun s i => insert s i (data.getD i [])) st

/-- One iteration of the query loop (itqlsh.h lines 265-275): compute the
hash, and only when the bucket exists (`find` succeeds) access it through
`operator[]` and deliver its ids to the scanner. -/
def queryStep (domin : List ℚ) (p : ItqLsh × List Nat) (k : Nat) : ItqLsh × List Nat :=
  let st := p.1
  let hv := getHashVal st k domin
  let t := st.tables.getD k []
  if (mapFind t hv).isSome then
    let r := mapGet t hv
    ({ st with tables := st.tables.set k r.1 }, p.2 ++ r.2)
  else p

/-- `itqLsh::query` (itqlsh.h lines 260-277): the final index state and
the sequence of candidate ids delivered to the scanner, in order. -/
def query (st : ItqLsh) (domin : List ℚ) : ItqLsh × List Nat :=
  (List.range st.param.L).foldl (queryStep domin) (st, [])

/-- `itqLsh::reset` (itqlsh.h lines 138-155): store the parameters,
resize the four per-table arrays to length `L`, then push `N` fresh draws
from `[0, M)` onto each `rndArray[k]`.  The PRNG is abstracted by `draw`:
the `i`-th value of `uniform_int_distribution(0, M-1)` is `draw i % M`. -/
def reset (st : ItqLsh) (p : Parameter) (draw : Nat → Nat) : ItqLsh :=
  { param := p
    pcsAll := resizeWith st.pcsAll p.L []
    omegasAll := resizeWith st.omegasAll p.L []
    rndArray := mapIdxFrom
      (fun k r => r ++ (List.range p.N).map (fun i => draw (k * p.N + i) % p.M))
      0 (resizeWith st.rndArray p.L [])
    tables := resizeWith st.tables p.L [] }

/-- The sign quantization of the ITQ training loop (itqlsh.h lines
208-216): `UX(i,j) = 1` when `Z(i,j) > 0`, else `-1`. -/
def signQuant (z : ℚ) : ℚ :=
  if 0 < z then 1 else -1

/-- `itqLsh::train` (itqlsh.h lines 156-240).  For every table `k < L`
the body computes, purely locally (Eigen matrices, the PRNG, the ITQ
loop with `signQuant`), a pair of matrices and then fully overwrites
`pcsAll[k]` and `omegasAll[k]` with them (lines 221-238); that local
numeric computation is abstracted as `fit k`.  No other field of the
index is read or written. -/
def train (st : ItqLsh) (fit : Nat → List (List ℚ) × List (List ℚ)) : ItqLsh :=
  { st with
    pcsAll := mapIdxFrom
      (fun k p => if k < st.param.L then (fit k).1 else p) 0 st.pcsAll
    omegasAll := mapIdxFrom
      (fun k o => if k < st.param.L then (fit k).2 else o) 0 st.omegasAll }

/-- One 32-bit word of the binary file: an unsigned integer or a float. -/
inductive Word where
  | u : Nat → Word
  | f : ℚ → Word
deriving DecidableEq, Repr

/-- Read one unsigned 32-bit word from the stream. -/
def readU : List Word → Option (Nat × List Word)
  | Word.u n :: rest => some (n, rest)
  | _ => none

/-- Read one float word from the stream. -/
def readF : List Word → Option (ℚ × List Word)
  | Word.f x :: rest => some (x, rest)
  | _ => none

/-- Read `n` unsigned words. -/
def readUs : Nat → List Word → Option (List Nat × List Word)
  | 0, ws => some ([], ws)
  | n + 1, ws => do
    let (x, ws1) ← readU ws
    let (xs, ws2) ← readUs n ws1
    some (x :: xs, ws2)

/-- Read `n` float words. -/
def readFs : Nat → List Word → Option (List ℚ × List Word)
  | 0, ws => some ([], ws)
  | n + 1, ws => do
    let (x, ws1) ← readF ws
    let (xs, ws2) ← readFs n ws1
    some (x :: xs, ws2)

/-- The bucket-reading loop of `load` (itqlsh.h lines 322-332): read
`count` records `(target, length, ids)` and store each as the bucket of
`target` in the table carried along. -/
def readBuckets : Nat → Table → List Word → Option (Table × List Word)
  | 0, t, ws => some (t, ws)
  | n + 1, t, ws => do
    let (target, ws1) ← readU ws
    let (len, ws2) ← readU ws1
    let (ids, ws3) ← readUs len ws2
    readBuckets n (mapSet t target ids) ws3

/-- The row-reading loop of `load` (itqlsh.h lines 333-341): read `n`
pairs of a `pcs` row (`d` floats) and an `omegas` row (`m` floats). -/
def readRows : Nat → Nat → Nat → List Word → Option ((List (List ℚ) × List (List ℚ)) × List Word)
  | 0, _, _, ws => some (([], []), ws)
  | n + 1, d, m, ws => do
    let (prow, ws1) ← readFs d ws
    let (orow, ws2) ← readFs m ws1
    let (rest, ws3) ← readRows n d m ws2
    some ((prow :: rest.1, orow :: rest.2), ws3)

/-- The per-table loop of `load` (itqlsh.h lines 318-342), one iteration
per entry of the resized `tables` vector: read `rndArray[i]` (`n` words),
the bucket block (into the old table entry), and the `n` rows of
`pcsAll[i]` / `omegasAll[i]`. -/
def loadBlocks : List Table → Nat → Nat → List Word →
    Option ((List (List Nat) × List Table × List (List (List ℚ)) × List (List (List ℚ))) × List Word)
  | [], _, _, ws => some (([], [], [], []), ws)
  | t :: ts, n, d, ws => do
    let (rnd, ws1) ← readUs n ws
    let (count, ws2) ← readU ws1
    let (t1, ws3) ← readBuckets count t ws2
    let (rows, ws4) ← readRows n d n ws3
    let (rest, ws5) ← loadBlocks ts n d ws4
    some ((rnd :: rest.1, t1 :: rest.2.1, rows.1 :: rest.2.2.1, rows.2 :: rest.2.2.2), ws5)

/-- `itqLsh::load` (itqlsh.h lines 305-344): read the five header words
`M, L, D, N, S` (the field `I` is not read and keeps its previous value),
resize `tables` to `L`, then read the `L` per-table blocks.  `none`
models a truncated or ill-typed stream. -/
def load (st : ItqLsh) (ws : List Word) : Option ItqLsh := do
  let (m, ws1) ← readU ws
  let (l, ws2) ← readU ws1
  let (d, ws3) ← readU ws2
  let (n, ws4) ← readU ws3
  let (s, ws5) ← readU ws4
  let (res, _) ← loadBlocks (resizeWith st.tables l []) n d ws5
  some { param := ⟨m, l, d, n, s, st.param.I⟩
         pcsAll := res.2.2.1
         omegasAll := res.2.2.2
         rndArray := res.1
         tables := res.2.1 }

/-- The per-table block written by `save` (itqlsh.h lines 356-371):
`rndArray[i]`, the bucket count, every bucket as `(key, length, ids)` in
ascending key order, then the `n` rows of `pcsAll[i]` and
`omegasAll[i]` interleaved. -/
def saveBlock (rnd : List Nat) (tb : Table) (pcs omegas : List (List ℚ)) (n : Nat) : List Word :=
  rnd.map Word.u ++ [Word.u tb.length] ++
  tb.flatMap (fun e => Word.u e.1 :: Word.u e.2.length :: e.2.map Word.u) ++
  (List.range n).flatMap
    (fun j => (pcs.getD j []).map Word.f ++ (omegas.getD j []).map Word.f)

/-- `itqLsh::save` (itqlsh.h lines 345-374): the five header words
`M, L, D, N, S` (no `I`), then one block per table `i < L`. -/
def save (st : ItqLsh) : List Word :=
  Word.u st.param.M :: Word.u st.param.L :: Word.u st.param.D ::
  Word.u st.param.N :: Word.u st.param.S ::
  (List.range st.param.L).flatMap
    (fun i => saveBlock (st.rndArray.getD i []) (st.tables.getD i [])
      (st.pcsAll.getD i []) (st.omegasAll.getD i []) st.param.N)

/-- The central bucket invariant (spec §8 law S3): every id stored in a
bucket `b` of a table `k < L` hashes, through that table, to `b`. -/
def tablesConsistent (st : ItqLsh) (data : List (List ℚ)) : Prop :=
  ∀ k, k < st.param.L → ∀ b ids, mapFind (st.tables.getD k []) b = some ids →
    ∀ id ∈ ids, getHashVal st k (data.getD id []) = b

/-- Shape well-formedness of the trained model arrays, as established by
`reset`, `train` and `load`: the three model arrays have length `L`,
every `rndArray[k]` has `N` entries, every `pcsAll[k]` is `N × D`, every
`omegasAll[k]` is `N × N`. -/
def wfModel (st : ItqLsh) : Prop :=
  st.pcsAll.length = st.param.L ∧
  st.omegasAll.length = st.param.L ∧
  st.rndArray.length = st.param.L ∧
  (∀ pk ∈ st.pcsAll, pk.length = st.param.N ∧ ∀ row ∈ pk, row.length = st.param.D) ∧
  (∀ ok ∈ st.omegasAll, ok.length = st.param.N ∧ ∀ row ∈ ok, row.length = st.param.N) ∧
  (∀ r ∈ st.rndArray, r.length = st.param.N)

/-- The `std::map` representation invariant: keys strictly ascending. -/
def sortedTable (t : Table) : Prop :=
  List.Pairwise (fun a b : Nat × Bucket => a.1 < b.1) t

section Lemmas

/-- Setting an index to the value already there is the identity. -/
theorem set_getD_self (l : List α) (k : Nat) (d : α) : l.set k (l.getD k d) = l := by
  induction l generalizing k with
  | nil => rfl
  | cons a as ih =>
    cases k with
    | zero => rfl
    | succ k => simpa [List.set, List.getD] using ih k

/-- A successful `find` makes `operator[]` a pure read: the table is
returned unchanged together with the found bucket. -/
theorem mapGet_of_mapFind {t : Table} {b : Nat} {ids : Bucket}
    (h : mapFind t b = some ids) : mapGet t b = (t, ids) := by
  induction t with
  | nil => simp [mapFind] at h
  | cons e rest ih =>
    obtain ⟨k, v⟩ := e
    by_cases h1 : b < k
    · simp [mapFind, h1] at h
    · by_cases h2 : b = k
      · simp [mapFind, h1, h2] at h
        simp [mapGet, h1, h2, h]
      · simp [mapFind, h1, h2] at h
        simp [mapGet, h1, h2, ih h]

/-- Lookup after `mapAppend`: the appended key gains `id` at the end of
its (possibly fresh) bucket, all other keys are untouched. -/
theorem mapFind_mapAppend (t : Table) (c b id : Nat) :
    mapFind (mapAppend t c id) b =
      if b = c then some ((mapFind t b).getD [] ++ [id]) else mapFind t b := by
  induction t with
  | nil =>
    by_cases h : b = c
    · subst h; simp [mapAppend, mapFind]
    · simp [mapAppend, mapFind, h]
  | cons e rest ih =>
    obtain ⟨k, v⟩ := e
    by_cases hck : c < k
    · -- new entry (c, [id]) inserted in front
      by_cases h : b = c
      · subst h
        simp [mapAppend, hck, mapFind, lt_irrefl]
      · simp only [mapAppend, hck, if_pos]
        by_cases hbc : b < c
        · have hbk : b < k := lt_trans hbc hck
          simp [mapFind, hbc, h, hbk]
        · simp [mapFind, hbc, h]
    · by_cases hck2 : c = k
      · subst hck2
        by_cases h : b = c
        · subst h
          simp [mapAppend, lt_irrefl, mapFind]
        · simp [mapAppend, lt_irrefl, mapFind, h]
      · -- c > k
        have hkc : k < c := by omega
        simp only [mapAppend, if_neg hck, if_neg hck2]
        by_cases hbk : b < k
        · have hbc : b ≠ c := by omega
          simp [mapFind, hbk, hbc]
        · by_cases hbk2 : b = k
          · subst hbk2
            have hbc : b ≠ c := by omega
            simp [mapFind, hbk, hbc]
          · simp [mapFind, hbk, hbk2, ih]

/-- Length of `mapIdxFrom`. -/
theorem mapIdxFrom_length (f : Nat → α → α) (i : Nat) (l : List α) :
    (mapIdxFrom f i l).length = l.length := by
  induction l generalizing i with
  | nil => rfl
  | cons a as ih => simp [mapIdxFrom, ih]

/-- `getD` through `mapIdxFrom` at an in-range index. -/
theorem mapIdxFrom_getD (f : Nat → α → α) (i k : Nat) (l : List α) (d : α)
    (h : k < l.length) :
    (mapIdxFrom f i l).getD k d = f (i + k) (l.getD k d) := by
  induction l generalizing i k with
  | nil => simp at h
  | cons a as ih =>
    cases k with
    | zero => simp [mapIdxFrom]
    | succ k =>
      simp only [List.length_cons, Nat.succ_lt_succ_iff] at h
      have := ih (i + 1) k h
      simpa [mapIdxFrom, Nat.add_assoc, Nat.add_comm 1 k] using this

/-- Length of `resizeWith` is the requested length. -/
theorem resizeWith_length (l : List α) (n : Nat) (pad : α) :
    (resizeWith l n pad).length = n := by
  simp [resizeWith]
  omega

/-- A query step never changes the index state: the bucket access through
`operator[]` happens only after `find` succeeded. -/
theorem queryStep_fst (v : List ℚ) (p : ItqLsh × List Nat) (k : Nat) :
    (queryStep v p k).1 = p.1 := by
  unfold queryStep
  by_cases h : (mapFind (p.1.tables.getD k []) (getHashVal p.1 k v)).isSome
  · obtain ⟨ids, hids⟩ := Option.isSome_iff_exists.mp h
    simp only [h, if_pos, mapGet_of_mapFind hids, set_getD_self]
  · rw [if_neg h]

/-- Folding query steps never changes the index state. -/
theorem foldl_queryStep_fst (v : List ℚ) (l : List Nat) (p : ItqLsh × List Nat) :
    (l.foldl (queryStep v) p).1 = p.1 := by
  induction l generalizing p with
  | nil => rfl
  | cons k ks ih => rw [List.foldl_cons, ih, queryStep_fst]

/-- Folding query steps only appends to the delivered-id list. -/
theorem foldl_queryStep_mem (v : List ℚ) (l : List Nat) (p : ItqLsh × List Nat)
    (id : Nat) (h : id ∈ p.2) : id ∈ (l.foldl (queryStep v) p).2 := by
  induction l generalizing p with
  | nil => exact h
  | cons k ks ih =>
    rw [List.foldl_cons]
    apply ih
    unfold queryStep
    by_cases hf : (mapFind (p.1.tables.getD k []) (getHashVal p.1 k v)).isSome
    · simp only [hf, if_pos]
      exact List.mem_append_left _ h
    · rwa [if_neg hf]

/-- `getD` past the end of a list yields the default. -/
theorem getD_eq_default_of_le (l : List α) (k : Nat) (d : α) (h : l.length ≤ k) :
    l.getD k d = d := by
  induction l generalizing k with
  | nil => cases k <;> rfl
  | cons a as ih =>
    cases k with
    | zero => simp at h
    | succ k =>
      simp only [List.length_cons, Nat.succ_le_succ_iff] at h
      simpa [List.getD] using ih k h

/-- `getD` at an in-range index is a member of the list. -/
theorem getD_mem (l : List α) (k : Nat) (d : α) (h : k < l.length) : l.getD k d ∈ l := by
  induction l generalizing k with
  | nil => simp at h
  | cons a as ih =>
    cases k with
    | zero => simp [List.getD]
    | succ k =>
      simp only [List.length_cons, Nat.succ_lt_succ_iff] at h
      exact List.mem_cons_of_mem _ (ih k h)

/-- `insert` does not change the hash function: it writes only `tables`,
and `getHashVal` reads only the model arrays and the parameters. -/
theorem getHashVal_insert (st : ItqLsh) (key : Nat) (w v : List ℚ) (k : Nat) :
    getHashVal (insert st key w) k v = getHashVal st k v := rfl

/-- Inserting a dataset row under its own index preserves the bucket
invariant. -/
theorem tablesConsistent_insert (st : ItqLsh) (data : List (List ℚ)) (id : Nat)
    (h : tablesConsistent st data) :
    tablesConsistent (insert st id (data.getD id [])) data := by
  intro k hk b ids hfind x hx
  rw [getHashVal_insert]
  by_cases hlen : k < st.tables.length
  · have ht : (insert st id (data.getD id [])).tables.getD k []
        = mapAppend (st.tables.getD k []) (getHashVal st k (data.getD id [])) id := by
      have hk2 : k < st.param.L := hk
      unfold insert
      rw [mapIdxFrom_getD _ _ _ _ _ hlen]
      simp [hk2]
    rw [ht, mapFind_mapAppend] at hfind
    by_cases hb : b = getHashVal st k (data.getD id [])
    · rw [if_pos hb] at hfind
      obtain rfl := Option.some_inj.mp hfind
      rcases List.mem_append.mp hx with hx1 | hx1
      · cases ho : mapFind (st.tables.getD k []) b with
        | none => rw [ho] at hx1; simp at hx1
        | some o =>
          rw [ho] at hx1
          simp only [Option.getD_some] at hx1
          exact h k hk b o ho x hx1
      · have hxid : x = id := by simpa using hx1
        subst hxid
        exact hb.symm
    · rw [if_neg hb] at hfind
      exact h k hk b ids hfind x hx
  · exfalso
    have hnil : (insert st id (data.getD id [])).tables.getD k [] = [] := by
      apply getD_eq_default_of_le
      unfold insert
      rw [mapIdxFrom_length]
      omega
    rw [hnil] at hfind
    simp [mapFind] at hfind

/-- An index whose tables are all empty satisfies the bucket invariant
vacuously. -/
theorem tablesConsistent_empty (st : ItqLsh) (data : List (List ℚ))
    (hE : ∀ t ∈ st.tables, t = []) : tablesConsistent st data := by
  intro k hk b ids hfind x hx
  exfalso
  have hnil : st.tables.getD k [] = [] := by
    by_cases h : k < st.tables.length
    · exact hE _ (getD_mem _ _ _ h)
    · exact getD_eq_default_of_le _ _ _ (by omega)
  rw [hnil] at hfind
  simp [mapFind] at hfind

/-- Folding row insertions preserves the bucket invariant. -/
theorem tablesConsistent_foldl (data : List (List ℚ)) (l : List Nat) (st : ItqLsh)
    (h : tablesConsistent st data) :
    tablesConsistent (l.foldl (fun s i => insert s i (data.getD i [])) st) data := by
  induction l generalizing st with
  | nil => exact h
  | cons i is ih => exact ih _ (tablesConsistent_insert st data i h)

/-- Every element of `mapIdxFrom f i l` is `f j a` for some element `a`
of `l`. -/
theorem mapIdxFrom_mem (f : Nat → α → α) (i : Nat) (l : List α) (b : α)
    (h : b ∈ mapIdxFrom f i l) : ∃ j a, a ∈ l ∧ b = f j a := by
  induction l generalizing i with
  | nil => simp [mapIdxFrom] at h
  | cons x xs ih =>
    simp only [mapIdxFrom, List.mem_cons] at h
    rcases h with h | h
    · exact ⟨i, x, List.mem_cons_self _ _, h⟩
    · obtain ⟨j, a, ha, hb⟩ := ih (i + 1) h
      exact ⟨j, a, List.mem_cons_of_mem _ ha, hb⟩

/-- Every element of a resized vector is an old element or the padding. -/
theorem resizeWith_mem (l : List α) (n : Nat) (pad : α) (b : α)
    (h : b ∈ resizeWith l n pad) : b ∈ l ∨ b = pad := by
  unfold resizeWith at h
  rcases List.mem_append.mp h with h | h
  · exact Or.inl (List.take_subset n l h)
  · exact Or.inr (List.eq_of_mem_replicate h)

/-- `getD` through `map` at an in-range index (defaults irrelevant). -/
theorem map_getD (f : α → β) (l : List α) (i : Nat) (d : α) (d2 : β)
    (h : i < l.length) : (l.map f).getD i d2 = f (l.getD i d) := by
  induction l generalizing i with
  | nil => simp at h
  | cons a as ih =>
    cases i with
    | zero => rfl
    | succ i =>
      simp only [List.length_cons, Nat.succ_lt_succ_iff] at h
      simpa [List.getD] using ih i h

/-- The accumulating dot product as an indexed sum over the row length. -/
theorem dotQ_eq_range (row v : List ℚ) (h : row.length ≤ v.length) :
    dotQ row v
      = ((List.range row.length).map (fun j => v.getD j 0 * row.getD j 0)).sum := by
  induction row generalizing v with
  | nil => simp [dotQ]
  | cons r rs ih =>
    cases v with
    | nil => simp at h
    | cons a vs =>
      simp only [List.length_cons, Nat.succ_le_succ_iff] at h
      have := ih vs h
      simp only [dotQ, List.zipWith_cons_cons, List.sum_cons] at this ⊢
      rw [this, List.length_cons, List.range_succ_eq_map, List.map_cons, List.sum_cons,
        List.map_map]
      simp [Function.comp_def, List.getElem?_cons_succ, List.getD]

/-- The accumulating weight loop of `getHashVal` equals the filtered
weight sum reduced once modulo `2 ^ 32`. -/
theorem foldl_hashStep (w : Nat → Nat) (pr : Nat → ℚ) (l : List Nat) (s : Nat)
    (hs : s < 2 ^ 32) :
    l.foldl (fun acc i => hashStep (w i) (pr i) acc) s
      = (s + ((l.filter (fun i => decide (0 < pr i))).map w).sum) % 2 ^ 32 := by
  induction l generalizing s with
  | nil => simpa using (Nat.mod_eq_of_lt hs).symm
  | cons i is ih =>
    by_cases hp : 0 < pr i
    · rw [List.foldl_cons]
      have h1 : hashStep (w i) (pr i) s = (s + w i) % 2 ^ 32 := by
        simp [hashStep, hp]
      rw [h1, ih _ (Nat.mod_lt _ (by norm_num))]
      rw [List.filter_cons_of_pos (by simpa using hp), List.map_cons, List.sum_cons]
      rw [Nat.mod_add_mod]
      ring_nf
    · rw [List.foldl_cons]
      have h1 : hashStep (w i) (pr i) s = s := by
        simp [hashStep, hp]
      rw [h1, ih _ hs, List.filter_cons_of_neg (by simpa using hp)]

/-- Reading back `n` unsigned words written from a list of length `n`. -/
theorem readUs_of_len (xs : List Nat) (n : Nat) (ws : List Word)
    (h : xs.length = n) : readUs n (xs.map Word.u ++ ws) = some (xs, ws) := by
  induction xs generalizing n ws with
  | nil => subst h; rfl
  | cons x rest ih =>
    subst h
    simp [readUs, readU, ih rest.length ws rfl]

/-- Reading back `n` float words written from a list of length `n`. -/
theorem readFs_of_len (xs : List ℚ) (n : Nat) (ws : List Word)
    (h : xs.length = n) : readFs n (xs.map Word.f ++ ws) = some (xs, ws) := by
  induction xs generalizing n ws with
  | nil => subst h; rfl
  | cons x rest ih =>
    subst h
    simp [readFs, readF, ih rest.length ws rfl]

/-- Writing a bucket under a key larger than every present key appends
it at the end. -/
theorem mapSet_append_of_gt (t : Table) (b : Nat) (ids : Bucket)
    (h : ∀ a ∈ t, a.1 < b) : mapSet t b ids = t ++ [(b, ids)] := by
  induction t with
  | nil => rfl
  | cons e rest ih =>
    have he : e.1 < b := h e (List.mem_cons_self _ _)
    obtain ⟨k, v⟩ := e
    simp only at he
    simp only [mapSet, if_neg (by omega : ¬ b < k), if_neg (by omega : ¬ b = k),
      List.cons_append, List.cons.injEq, true_and]
    exact ih (fun a ha => h a (List.mem_cons_of_mem _ ha))

/-- Replaying the bucket records of a sorted table onto a prefix whose
keys are all smaller rebuilds the table by successive appends. -/
theorem foldl_mapSet_sorted (tb : Table) (acc : Table)
    (hs : sortedTable tb) (hlt : ∀ a ∈ acc, ∀ e ∈ tb, a.1 < e.1) :
    tb.foldl (fun a e => mapSet a e.1 e.2) acc = acc ++ tb := by
  induction tb generalizing acc with
  | nil => simp
  | cons e rest ih =>
    rw [List.foldl_cons,
      mapSet_append_of_gt acc e.1 e.2 (fun a ha => hlt a ha e (List.mem_cons_self _ _))]
    rw [ih (acc ++ [e]) (List.pairwise_cons.mp hs).2]
    · simp
    · intro a ha e2 he2
      rcases List.mem_append.mp ha with ha1 | ha1
      · exact hlt a ha1 e2 (List.mem_cons_of_mem _ he2)
      · have : a = e := by simpa using ha1
        subst this
        exact (List.pairwise_cons.mp hs).1 e2 he2

/-- Reading `count` bucket records back replays `mapSet` over them. -/
theorem readBuckets_encode (tb : Table) (acc : Table) (ws : List Word) :
    readBuckets tb.length acc
      (tb.flatMap (fun e => Word.u e.1 :: Word.u e.2.length :: e.2.map Word.u) ++ ws)
      = some (tb.foldl (fun a e => mapSet a e.1 e.2) acc, ws) := by
  induction tb generalizing acc with
  | nil => rfl
  | cons e rest ih =>
    have hrd : ∀ ws2 : List Word,
        readUs e.2.length (e.2.map Word.u ++ ws2) = some (e.2, ws2) :=
      fun ws2 => readUs_of_len e.2 e.2.length ws2 rfl
    simp [readBuckets, readU, hrd, ih (mapSet acc e.1 e.2), List.append_assoc]

/-- Reading the bucket block of a sorted table from an empty table
reproduces it exactly. -/
theorem readBuckets_sorted (tb : Table) (ws : List Word) (hs : sortedTable tb) :
    readBuckets tb.length []
      (tb.flatMap (fun e => Word.u e.1 :: Word.u e.2.length :: e.2.map Word.u) ++ ws)
      = some (tb, ws) := by
  rw [readBuckets_encode, foldl_mapSet_sorted tb [] hs (by simp)]
  rfl

/-- Reading back the interleaved `pcs`/`omegas` rows of one table. -/
theorem readRows_encode (d m : Nat) (pcs omgs : List (List ℚ)) (n : Nat) (ws : List Word)
    (hp : pcs.length = n) (ho : omgs.length = n)
    (hpr : ∀ r ∈ pcs, r.length = d) (hor : ∀ r ∈ omgs, r.length = m) :
    readRows n d m ((List.range n).flatMap
        (fun j => (pcs.getD j []).map Word.f ++ (omgs.getD j []).map Word.f) ++ ws)
      = some ((pcs, omgs), ws) := by
  induction pcs generalizing omgs n ws with
  | nil =>
    subst hp
    have : omgs = [] := List.length_eq_zero.mp ho
    subst this
    rfl
  | cons p ps ih =>
    subst hp
    cases omgs with
    | nil => simp at ho
    | cons o os =>
      simp only [List.length_cons, Nat.succ_inj] at ho
      simp only [List.length_cons, List.range_succ_eq_map, List.flatMap_cons,
        List.flatMap_map]
      simp only [List.getD_cons_zero, List.getD_cons_succ, List.append_assoc]
      have h1 : ∀ r ∈ ps, r.length = d := fun r hr => hpr r (List.mem_cons_of_mem _ hr)
      have h2 : ∀ r ∈ os, r.length = m := fun r hr => hor r (List.mem_cons_of_mem _ hr)
      have hihw : ∀ ws2 : List Word,
          readRows ps.length d m ((List.range ps.length).flatMap
            (fun j => (ps.getD j []).map Word.f ++ (os.getD j []).map Word.f) ++ ws2)
            = some ((ps, os), ws2) :=
        fun ws2 => ih os ps.length ws2 rfl ho h1 h2
      simp only [List.getD_eq_getElem?_getD] at hihw
      have hrp : ∀ ws2 : List Word, readFs d (p.map Word.f ++ ws2) = some (p, ws2) :=
        fun ws2 => readFs_of_len p d ws2 (hpr p (List.mem_cons_self _ _))
      have hro : ∀ ws2 : List Word, readFs m (o.map Word.f ++ ws2) = some (o, ws2) :=
        fun ws2 => readFs_of_len o m ws2 (hor o (List.mem_cons_self _ _))
      simp [readRows, hrp, hro, hihw, List.append_assoc]

/-- Resizing the empty vector is padding. -/
theorem resizeWith_nil (n : Nat) (pad : α) :
    resizeWith ([] : List α) n pad = List.replicate n pad := by
  simp [resizeWith]

/-- Reading the `L` per-table blocks written by `save` from freshly
resized empty tables reproduces all four arrays. -/
theorem loadBlocks_encode (n d : Nat) (tbls : List Table) :
    ∀ (rnds : List (List Nat)) (pcss omgs : List (List (List ℚ))) (ws : List Word),
      rnds.length = tbls.length → pcss.length = tbls.length → omgs.length = tbls.length →
      (∀ r ∈ rnds, r.length = n) →
      (∀ tb ∈ tbls, sortedTable tb) →
      (∀ pk ∈ pcss, pk.length = n ∧ ∀ row ∈ pk, row.length = d) →
      (∀ ok ∈ omgs, ok.length = n ∧ ∀ row ∈ ok, row.length = n) →
      loadBlocks (List.replicate tbls.length []) n d
        ((List.range tbls.length).flatMap (fun i => saveBlock (rnds.getD i [])
          (tbls.getD i []) (pcss.getD i []) (omgs.getD i []) n) ++ ws)
        = some ((rnds, tbls, pcss, omgs), ws) := by
  induction tbls with
  | nil =>
    intro rnds pcss omgs ws h1 h2 h3 _ _ _ _
    obtain rfl := List.length_eq_zero.mp h1
    obtain rfl := List.length_eq_zero.mp h2
    obtain rfl := List.length_eq_zero.mp h3
    rfl
  | cons t ts ih =>
    intro rnds pcss omgs ws h1 h2 h3 hrn hst hpc hoc
    cases rnds with
    | nil => simp at h1
    | cons r rs =>
      cases pcss with
      | nil => simp at h2
      | cons p ps =>
        cases omgs with
        | nil => simp at h3
        | cons o os =>
          simp only [List.length_cons, Nat.succ_inj] at h1 h2 h3
          simp only [List.length_cons, List.replicate_succ, List.range_succ_eq_map,
            List.flatMap_cons, List.flatMap_map, List.getD_cons_zero, List.getD_cons_succ]
          have hihw : ∀ ws2 : List Word,
              loadBlocks (List.replicate ts.length []) n d
                ((List.range ts.length).flatMap (fun i => saveBlock (rs.getD i [])
                  (ts.getD i []) (ps.getD i []) (os.getD i []) n) ++ ws2)
                = some ((rs, ts, ps, os), ws2) :=
            fun ws2 => ih rs ps os ws2 h1 h2 h3
              (fun a ha => hrn a (List.mem_cons_of_mem _ ha))
              (fun a ha => hst a (List.mem_cons_of_mem _ ha))
              (fun a ha => hpc a (List.mem_cons_of_mem _ ha))
              (fun a ha => hoc a (List.mem_cons_of_mem _ ha))
          simp only [List.getD_eq_getElem?_getD] at hihw
          have hrd : ∀ ws2 : List Word, readUs n (r.map Word.u ++ ws2) = some (r, ws2) :=
            fun ws2 => readUs_of_len r n ws2 (hrn r (List.mem_cons_self _ _))
          have hbk : ∀ ws2 : List Word,
              readBuckets t.length []
                (t.flatMap (fun e => Word.u e.1 :: Word.u e.2.length :: e.2.map Word.u) ++ ws2)
                = some (t, ws2) :=
            fun ws2 => readBuckets_sorted t ws2 (hst t (List.mem_cons_self _ _))
          have hrw : ∀ ws2 : List Word,
              readRows n d n ((List.range n).flatMap
                (fun j => (p.getD j []).map Word.f ++ (o.getD j []).map Word.f) ++ ws2)
                = some ((p, o), ws2) :=
            fun ws2 => readRows_encode d n p o n ws2
              (hpc p (List.mem_cons_self _ _)).1 (hoc o (List.mem_cons_self _ _)).1
              (hpc p (List.mem_cons_self _ _)).2 (hoc o (List.mem_cons_self _ _)).2
          simp only [List.getD_eq_getElem?_getD] at hrw
          simp only [saveBlock, List.append_assoc, List.cons_append, List.nil_append,
            List.singleton_append, List.getD_eq_getElem?_getD] at hihw
          simp [loadBlocks, saveBlock, readU, hrd, hbk, hrw, hihw, List.append_assoc]

end Lemmas

section ConcreteStates

/-- A small fully populated index used to instantiate theorems. -/
def stSmall : ItqLsh :=
  { param := ⟨2, 1, 1, 1, 1, 7⟩
    pcsAll := [[[(1 : ℚ)]]]
    omegasAll := [[[(1 : ℚ)]]]
    rndArray := [[1]]
    tables := [[(0, [5])]] }

/-- A freshly constructed index (no tables, arbitrary parameters). -/
def stFresh : ItqLsh := ⟨⟨0, 0, 0, 0, 0, 9⟩, [], [], [], []⟩

end ConcreteStates

/-- C2: for every table `k < L` and input vector of length `D`, the hash
value computed by `getHashVal` is the value the specification describes:
the weights `rnd[k][i]` of the bits `i < N` whose rotated projection
`s[i] = Σ_j p[j]·omegas[k][i][j]` (with `p[i] = Σ_j v[j]·pcs[k][i][j]`
over the uncentered input) is strictly positive, summed with 32-bit
unsigned wraparound and reduced modulo `M`. -/
theorem itq_C2 (st : ItqLsh) (k : Nat) (v : List ℚ)
    (hw : wfModel st) (hk : k < st.param.L) (hv : v.length = st.param.D) :
    getHashVal st k v = getHashValSpec st k v := by
  obtain ⟨hpl, hol, hrl, hpc, hoc, hrc⟩ := hw
  have hkp : k < st.pcsAll.length := by omega
  have hko : k < st.omegasAll.length := by omega
  obtain ⟨hpcsN, hpcsD⟩ := hpc _ (getD_mem st.pcsAll k [] hkp)
  obtain ⟨homN, homRow⟩ := hoc _ (getD_mem st.omegasAll k [] hko)
  have hdml : (List.map (fun row => dotQ row v) (st.pcsAll.getD k [])).length
      = st.param.N := by
    rw [List.length_map, hpcsN]
  simp only [getHashVal, getHashValSpec]
  rw [hdml]
  have hfold := foldl_hashStep (fun i => (st.rndArray.getD k []).getD i 0)
    (fun i => dotQ ((st.omegasAll.getD k []).getD i [])
      (List.map (fun row => dotQ row v) (st.pcsAll.getD k [])))
    (List.range st.param.N) 0 (by norm_num)
  simp only [] at hfold
  rw [hfold, Nat.zero_add]
  congr 2
  refine congrArg List.sum (congrArg _ (List.filter_congr ?_))
  intro i hi
  rw [List.mem_range] at hi
  have hiN : i < (st.omegasAll.getD k []).length := by omega
  have homRowLen : ((st.omegasAll.getD k []).getD i []).length = st.param.N :=
    homRow _ (getD_mem _ _ _ hiN)
  have hstep : dotQ ((st.omegasAll.getD k []).getD i [])
        (List.map (fun row => dotQ row v) (st.pcsAll.getD k []))
      = ((List.range st.param.N).map
          (fun j => ((List.range st.param.D).map
              (fun j2 => v.getD j2 0 * ((st.pcsAll.getD k []).getD j []).getD j2 0)).sum
            * ((st.omegasAll.getD k []).getD i []).getD j 0)).sum := by
    rw [dotQ_eq_range _ _ (by rw [homRowLen, hdml]), homRowLen]
    apply congrArg List.sum
    apply List.map_congr_left
    intro j hj
    rw [List.mem_range] at hj
    have hjp : j < (st.pcsAll.getD k []).length := by omega
    have h1 : (List.map (fun row => dotQ row v) (st.pcsAll.getD k [])).getD j 0
        = dotQ ((st.pcsAll.getD k []).getD j []) v :=
      map_getD _ _ _ [] _ hjp
    have hrowD : ((st.pcsAll.getD k []).getD j []).length = st.param.D :=
      hpcsD _ (getD_mem _ _ _ hjp)
    rw [h1, dotQ_eq_range _ _ (by rw [hrowD, hv]), hrowD]
  simp only [hstep]

/-- Witness for C2 on a concrete well-formed index and vector. -/
theorem itq_C2_witness :
    (wfModel stSmall ∧ 0 < stSmall.param.L ∧
      ([(3 : ℚ)] : List ℚ).length = stSmall.param.D) ∧
    getHashVal stSmall 0 [(3 : ℚ)] = getHashValSpec stSmall 0 [(3 : ℚ)] :=
  ⟨⟨⟨rfl, rfl, rfl, by decide, by decide, by decide⟩, by decide, rfl⟩,
   itq_C2 stSmall 0 [(3 : ℚ)]
     ⟨rfl, rfl, rfl, by decide, by decide, by decide⟩ (by decide) rfl⟩

/-- C3: under the precondition `M ≥ 1`, for every table index `k < L` and
every input vector `v`, the returned hash value satisfies
`0 ≤ getHashVal(k, v) < M`. -/
theorem itq_C3 (st : ItqLsh) (k : Nat) (v : List ℚ)
    (_hk : k < st.param.L) (hM : 1 ≤ st.param.M) :
    0 ≤ getHashVal st k v ∧ getHashVal st k v < st.param.M :=
  ⟨Nat.zero_le _, by unfold getHashVal; exact Nat.mod_lt _ hM⟩

/-- Witness for C3 at a concrete index, table and vector. -/
theorem itq_C3_witness :
    0 ≤ getHashVal stSmall 0 [(3 : ℚ)] ∧ getHashVal stSmall 0 [(3 : ℚ)] < stSmall.param.M :=
  itq_C3 stSmall 0 [(3 : ℚ)] (by decide) (by decide)

/-- C6: the sign convention is strict positivity on both sides: during
the ITQ iteration a projection entry that is zero or negative quantizes
to `-1`, and during hashing a bit whose rotated projection is zero or
negative accumulates no weight; only strictly positive values map to `+1`
and contribute their weight to the 32-bit wrapping sum. -/
theorem itq_C6 (z : ℚ) (w s : Nat) :
    (z ≤ 0 → signQuant z = -1 ∧ hashStep w z s = s) ∧
    (0 < z → signQuant z = 1 ∧ hashStep w z s = (s + w) % 2 ^ 32) := by
  constructor
  · intro h
    simp [signQuant, hashStep, not_lt.mpr h]
  · intro h
    simp [signQuant, hashStep, h]

/-- Witness for C6 at the exactly-zero projection and a positive one. -/
theorem itq_C6_witness :
    (signQuant 0 = -1 ∧ hashStep 5 0 3 = 3) ∧
    (signQuant 1 = 1 ∧ hashStep 5 1 3 = (3 + 5) % 2 ^ 32) :=
  ⟨(itq_C6 0 5 3).1 (by norm_num), (itq_C6 1 5 3).2 (by norm_num)⟩

/-- C8: `train` writes only `pcsAll` and `omegasAll`: the parameters,
the random weights and every table of buckets are exactly the same after
the call as before it. -/
theorem itq_C8 (st : ItqLsh) (fit : Nat → List (List ℚ) × List (List ℚ)) :
    (train st fit).param = st.param ∧
    (train st fit).rndArray = st.rndArray ∧
    (train st fit).tables = st.tables :=
  ⟨rfl, rfl, rfl⟩

/-- After a `load` that returns a state, the `I` field is exactly the
`I` field of the index the call was made on: `load` never reads it. -/
theorem load_param_I (st : ItqLsh) (ws : List Word) (st1 : ItqLsh)
    (h : load st ws = some st1) : st1.param.I = st.param.I := by
  unfold load at h
  simp only [bind, Option.bind_eq_some] at h
  obtain ⟨⟨m, ws1⟩, _, h⟩ := h
  obtain ⟨⟨l, ws2⟩, _, h⟩ := h
  obtain ⟨⟨d, ws3⟩, _, h⟩ := h
  obtain ⟨⟨n, ws4⟩, _, h⟩ := h
  obtain ⟨⟨s, ws5⟩, _, h⟩ := h
  obtain ⟨⟨res, wsr⟩, _, h⟩ := h
  cases h
  rfl

/-- C9: the training iteration count `I` is never persisted: the stream
written by `save` does not depend on `I` (so no `I` field exists anywhere
in the file), the header holds exactly `M, L, D, N, S`, and after any
successful `load` the in-memory `I` equals its value before the call. -/
theorem itq_C9 (st st2 : ItqLsh) (n : Nat) (ws : List Word) (st1 : ItqLsh)
    (h : load st2 ws = some st1) :
    save { st with param := { st.param with I := n } } = save st ∧
    (save st).take 5 = [Word.u st.param.M, Word.u st.param.L, Word.u st.param.D,
      Word.u st.param.N, Word.u st.param.S] ∧
    st1.param.I = st2.param.I :=
  ⟨rfl, rfl, load_param_I st2 ws st1 h⟩

/-- Witness for C9: a concrete successful `load` of a five-word header. -/
theorem itq_C9_witness :
    load stFresh [Word.u 1, Word.u 0, Word.u 2, Word.u 3, Word.u 4]
      = some ⟨⟨1, 0, 2, 3, 4, 9⟩, [], [], [], []⟩ ∧
    (save { stSmall with param := { stSmall.param with I := 42 } } = save stSmall ∧
     (save stSmall).take 5 = [Word.u stSmall.param.M, Word.u stSmall.param.L,
       Word.u stSmall.param.D, Word.u stSmall.param.N, Word.u stSmall.param.S] ∧
     (⟨⟨1, 0, 2, 3, 4, 9⟩, [], [], [], []⟩ : ItqLsh).param.I = stFresh.param.I) :=
  ⟨rfl, itq_C9 stSmall stFresh 42 [Word.u 1, Word.u 0, Word.u 2, Word.u 3, Word.u 4]
    ⟨⟨1, 0, 2, 3, 4, 9⟩, [], [], [], []⟩ rfl⟩

/-- C1: for every `(key, v)` pair added by `insert` on an index whose
state is unchanged since, `query(v)` delivers `key` to the scanner at
least once across the `L` tables. -/
theorem itq_C1 (st : ItqLsh) (key : Nat) (v : List ℚ)
    (hL : 0 < st.param.L) (hlen : st.param.L ≤ st.tables.length) :
    key ∈ (query (insert st key v) v).2 := by
  obtain ⟨n, hn⟩ : ∃ n, st.param.L = n + 1 := ⟨st.param.L - 1, by omega⟩
  have hq : query (insert st key v) v
      = (List.range st.param.L).foldl (queryStep v) (insert st key v, []) := rfl
  rw [hq, hn, List.range_succ_eq_map, List.foldl_cons]
  apply foldl_queryStep_mem
  have ht : (insert st key v).tables.getD 0 []
      = mapAppend (st.tables.getD 0 []) (getHashVal st 0 v) key := by
    unfold insert
    rw [mapIdxFrom_getD _ _ _ _ _ (by omega)]
    simp [hL]
  have hfind : mapFind ((insert st key v).tables.getD 0 [])
        (getHashVal (insert st key v) 0 v)
      = some ((mapFind (st.tables.getD 0 []) (getHashVal st 0 v)).getD [] ++ [key]) := by
    rw [ht]
    have hh : getHashVal (insert st key v) 0 v = getHashVal st 0 v := rfl
    rw [hh, mapFind_mapAppend, if_pos rfl]
  show key ∈ (queryStep v (insert st key v, []) 0).2
  unfold queryStep
  simp only [hfind, mapGet_of_mapFind hfind, Option.isSome_some, if_pos]
  simp

/-- Witness for C1 on a concrete index, key and vector. -/
theorem itq_C1_witness : 7 ∈ (query (insert stSmall 7 [(3 : ℚ)]) [(3 : ℚ)]).2 :=
  itq_C1 stSmall 7 [(3 : ℚ)] (by decide) (by decide)

/-- C4: `save` followed by `load` on a fresh index reproduces `pcs`,
`omegas`, `rnd` and every bucket exactly — the same populated bucket ids
per table and the same id sequences — for any state whose arrays have the
shapes produced by `reset`/`train`/`insert` (length-`L` arrays, `N`
weights per table, `N × D` and `N × N` matrices, sorted bucket maps). -/
theorem itq_C4 (st st0 : ItqLsh) (h0 : st0.tables = [])
    (hT : st.tables.length = st.param.L) (hR : st.rndArray.length = st.param.L)
    (hP : st.pcsAll.length = st.param.L) (hO : st.omegasAll.length = st.param.L)
    (hrn : ∀ r ∈ st.rndArray, r.length = st.param.N)
    (hsort : ∀ tb ∈ st.tables, sortedTable tb)
    (hpc : ∀ pk ∈ st.pcsAll, pk.length = st.param.N ∧ ∀ row ∈ pk, row.length = st.param.D)
    (hoc : ∀ ok ∈ st.omegasAll, ok.length = st.param.N ∧ ∀ row ∈ ok, row.length = st.param.N) :
    load st0 (save st) = some
      { param := ⟨st.param.M, st.param.L, st.param.D, st.param.N, st.param.S, st0.param.I⟩
        pcsAll := st.pcsAll
        omegasAll := st.omegasAll
        rndArray := st.rndArray
        tables := st.tables } := by
  have hmain := loadBlocks_encode st.param.N st.param.D st.tables st.rndArray
    st.pcsAll st.omegasAll [] (by rw [hR, hT]) (by rw [hP, hT]) (by rw [hO, hT])
    hrn hsort hpc hoc
  rw [hT, List.append_nil] at hmain
  simp only [List.getD_eq_getElem?_getD] at hmain
  simp [load, save, readU, h0, resizeWith_nil, hmain]

/-- Witness for C4: a concrete populated index round-trips through a
fresh one. -/
theorem itq_C4_witness :
    load stFresh (save stSmall) = some
      { param := ⟨stSmall.param.M, stSmall.param.L, stSmall.param.D, stSmall.param.N,
          stSmall.param.S, stFresh.param.I⟩
        pcsAll := stSmall.pcsAll
        omegasAll := stSmall.omegasAll
        rndArray := stSmall.rndArray
        tables := stSmall.tables } :=
  itq_C4 stSmall stFresh rfl rfl rfl rfl rfl (by decide)
    (by intro tb htb
        simp only [stSmall, List.mem_singleton] at htb
        subst htb
        exact List.pairwise_singleton _ _)
    (by decide) (by decide)

/-- C5: after `hash(data)` on an index with empty tables, every id stored
in a bucket `b` of a table `k < L` hashes to `b`; and the invariant is
preserved by any further `insert` of a dataset row under its own index. -/
theorem itq_C5 (st : ItqLsh) (data : List (List ℚ))
    (hE : ∀ t ∈ st.tables, t = []) :
    tablesConsistent (hash st data) data ∧
    ∀ st2 id, tablesConsistent st2 data →
      tablesConsistent (insert st2 id (data.getD id [])) data :=
  ⟨tablesConsistent_foldl data (List.range data.length) st
      (tablesConsistent_empty st data hE),
   fun st2 id h => tablesConsistent_insert st2 data id h⟩

/-- Witness for C5 on a concrete index and dataset. -/
theorem itq_C5_witness :
    (∀ t ∈ ({ stSmall with tables := [[]] } : ItqLsh).tables, t = []) ∧
    (tablesConsistent (hash { stSmall with tables := [[]] } [[(3 : ℚ)]]) [[(3 : ℚ)]] ∧
     ∀ st2 id, tablesConsistent st2 [[(3 : ℚ)]] →
       tablesConsistent (insert st2 id (([[(3 : ℚ)]] : List (List ℚ)).getD id [])) [[(3 : ℚ)]]) :=
  ⟨by decide, itq_C5 { stSmall with tables := [[]] } [[(3 : ℚ)]] (by decide)⟩

/-- C7 as the code actually behaves (amended): `reset` resizes the four
per-table arrays to length `L`, and *appends* `N` fresh draws from
`[0, M)` to each kept `rndArray[k]`; so when every previous `rndArray[k]`
is empty — in particular on a freshly constructed index — each
`rndArray[k]` ends up with exactly `N` values in `[0, M)`. -/
theorem itq_C7 (st : ItqLsh) (p : Parameter) (draw : Nat → Nat)
    (hM : 1 ≤ p.M) (_hL : 1 ≤ p.L) (hE : ∀ r ∈ st.rndArray, r = []) :
    (reset st p draw).tables.length = p.L ∧
    (reset st p draw).rndArray.length = p.L ∧
    (reset st p draw).pcsAll.length = p.L ∧
    (reset st p draw).omegasAll.length = p.L ∧
    ∀ r ∈ (reset st p draw).rndArray, r.length = p.N ∧ ∀ x ∈ r, x < p.M := by
  refine ⟨resizeWith_length _ _ _, ?_, resizeWith_length _ _ _, resizeWith_length _ _ _, ?_⟩
  · show (mapIdxFrom _ 0 (resizeWith st.rndArray p.L [])).length = p.L
    rw [mapIdxFrom_length, resizeWith_length]
  · intro r hr
    obtain ⟨j, a, ha, rfl⟩ := mapIdxFrom_mem _ _ _ _ hr
    have ha2 : a = [] := by
      rcases resizeWith_mem _ _ _ _ ha with h | h
      · exact hE a h
      · exact h
    subst ha2
    constructor
    · simp
    · intro x hx
      simp only [List.nil_append, List.mem_map, List.mem_range] at hx
      obtain ⟨i, _, rfl⟩ := hx
      exact Nat.mod_lt _ hM

/-- Counterexample to C7 as stated: on an index that was already reset,
a second `reset` with the same parameters leaves `rndArray[0]` with `2N`
values, not `N`. -/
theorem itq_C7_cex :
    ¬ (((reset (reset stFresh ⟨4, 1, 1, 2, 1, 0⟩ (fun i => i)) ⟨4, 1, 1, 2, 1, 0⟩
          (fun i => i)).rndArray.getD 0 []).length = (2 : Nat)) := by
  decide

/-- Witness for the amended C7 on a fresh index. -/
theorem itq_C7_witness :
    (1 ≤ (4 : Nat) ∧ 1 ≤ (1 : Nat) ∧ ∀ r ∈ stFresh.rndArray, r = []) ∧
    ((reset stFresh ⟨4, 1, 1, 2, 1, 0⟩ (fun i => i)).tables.length = 1 ∧
     (reset stFresh ⟨4, 1, 1, 2, 1, 0⟩ (fun i => i)).rndArray.length = 1 ∧
     (reset stFresh ⟨4, 1, 1, 2, 1, 0⟩ (fun i => i)).pcsAll.length = 1 ∧
     (reset stFresh ⟨4, 1, 1, 2, 1, 0⟩ (fun i => i)).omegasAll.length = 1 ∧
     ∀ r ∈ (reset stFresh ⟨4, 1, 1, 2, 1, 0⟩ (fun i => i)).rndArray,
       r.length = 2 ∧ ∀ x ∈ r, x < 4) :=
  ⟨⟨by decide, by decide, by decide⟩,
   itq_C7 stFresh ⟨4, 1, 1, 2, 1, 0⟩ (fun i => i) (by decide) (by decide) (by decide)⟩

/-- C10: `query` is read-only on the index: parameters, `rnd`, `pcs`,
`omegas` and every table are exactly as before the call; in particular a
query hashing to an unpopulated bucket creates no bucket entry, because
the `operator[]` access is guarded by the `find` existence check. -/
theorem itq_C10 (st : ItqLsh) (v : List ℚ) : (query st v).1 = st :=
  foldl_queryStep_fst v (List.range st.param.L) (st, [])

end lshbox
